import Mathlib

/-!
Verification of the report lifecycle and score-aggregation engine of
`lighthouse-keeper` (`src/lighthouse-data.mjs`), as a shallow embedding.

Modelling conventions:
* JS numbers are modelled as `Rat`.  Every numeric value manipulated by the
  claims (category scores times 100, averages of two values) has a finite
  decimal expansion, which the embedding renders exactly.
* Timestamps (`Date` values, Firestore timestamps) are modelled as `Int`
  epoch milliseconds.  `Date.prototype.toISOString` is injective at
  millisecond precision and `Firestore.Timestamp` round-trips through
  `Date` losslessly at that precision, so the ISO-8601 string comparison
  in `getReports` is modelled as equality of the underlying timestamps.
* JS `Array.prototype.sort` (ES2019 and later) is a stable sort under the
  comparator; with no comparator argument it compares the elements'
  string representations by UTF-16 code units.  `sortByLe` below is a
  stable insertion sort producing the unique stable sorted permutation,
  and `jsNumChars` renders a number the way `Number::toString` does for
  values with a finite decimal expansion (the only values that occur
  here; the exponent forms for huge or tiny magnitudes are out of range
  for category scores).
* The Firestore / memcache / cloud-storage state is a record of typed
  maps (`Store` below); each memcache key used by the source gets the
  value type the source stores under it.
-/

namespace LHKeeper

/-- Maximum number of reports fetched by default (`MAX_REPORTS` in the source). -/
def MAX_REPORTS : Nat := 10

/-! ## Identifier codec: `slugify` / `deslugify` -/

/-- Embedding of `url.replace(/\x2f/g, '__')`: every slash character is
replaced by two underscores. -/
def slugifyChars : List Char → List Char
  | [] => []
  | c :: cs => (if c = '/' then ['_', '_'] else [c]) ++ slugifyChars cs

/-- `slugify(url)` from the source, on `String`. -/
def slugify (url : String) : String := ⟨slugifyChars url.toList⟩

/-- Embedding of `id.replace(/__/g, '/')`: the scan replaces leftmost,
non-overlapping occurrences of two consecutive underscores by a slash,
exactly as a global regex replace does. -/
def deslugifyChars : List Char → List Char
  | [] => []
  | [c] => [c]
  | c :: d :: rest =>
    if c = '_' ∧ d = '_' then '/' :: deslugifyChars rest
    else c :: deslugifyChars (d :: rest)

/-- `deslugify(id)` from the source, on `String`. -/
def deslugify (s : String) : String := ⟨deslugifyChars s.toList⟩

/-- Decidable check that a character list contains two consecutive
underscores (the escape substring of the codec). -/
def hasDoubleUnderscore : List Char → Bool
  | [] => false
  | [_] => false
  | c :: d :: rest => (c = '_' && d = '_') || hasDoubleUnderscore (d :: rest)

/-! ## Stable sort (ECMAScript `Array.prototype.sort`) -/

/-- Insert `x` into `l` before the first element `y` with `le x y`;
this is the insertion step of a stable insertion sort. -/
def insertLe (le : α → α → Bool) (x : α) : List α → List α
  | [] => [x]
  | y :: ys => if le x y then x :: y :: ys else y :: insertLe le x ys

/-- Stable insertion sort.  For a total, transitive comparator this
computes the unique stable sorted permutation, which is what ES2019
`Array.prototype.sort` returns. -/
def sortByLe (le : α → α → Bool) (l : List α) : List α :=
  l.foldr (insertLe le) []

/-! ## Rendering JS numbers as strings (for the comparator-less sort) -/

/-- Decimal digit character. -/
def digitChar (n : Nat) : Char := Char.ofNat (48 + n)

/-- Digits of the fractional part of `q` (assumed `0 ≤ q < 1`), produced by
repeated multiplication by ten; the fuel bounds the number of digits and is
never exhausted on values with a short finite decimal expansion. -/
def fracDigits : Nat → Rat → List Char
  | 0, _ => []
  | fuel + 1, q =>
    if q = 0 then []
    else
      let d : Nat := (q * 10).num.toNat / (q * 10).den
      digitChar d :: fracDigits fuel (q * 10 - (d : Rat))

/-- String rendering of a non-negative JS number with a finite decimal
expansion: integer part in decimal, then a dot and the fractional digits
when the fractional part is non-zero. -/
def jsNumCharsNN (q : Rat) : List Char :=
  let ip : Nat := q.num.toNat / q.den
  let fp : Rat := q - (ip : Rat)
  if fp = 0 then (Nat.repr ip).toList
  else (Nat.repr ip).toList ++ '.' :: fracDigits 20 fp

/-- String rendering of a JS number (`Number::toString`), for the values in
scope here (finite decimal expansions, no exponent notation). -/
def jsNumChars (q : Rat) : List Char :=
  if q < 0 then '-' :: jsNumCharsNN (-q) else jsNumCharsNN q

/-- Lexicographic comparison of character lists by code unit, the order
used by the default (comparator-less) `Array.prototype.sort`. -/
def charListLe : List Char → List Char → Bool
  | [], _ => true
  | _ :: _, [] => false
  | c :: cs, d :: ds =>
    if c.toNat < d.toNat then true
    else if d.toNat < c.toNat then false
    else charListLe cs ds

/-- The default sort applied by `numbers.sort()` in the source: elements are
compared as strings. -/
def jsSortNumbers (l : List Rat) : List Rat :=
  sortByLe (fun a b => charListLe (jsNumChars a) (jsNumChars b)) l

/-! ## `median` -/

/-- Embedding of `median(numbers)` from the source.  The source sorts with
`numbers.sort()` — the comparator-less, lexicographic string sort — and then
takes the central value (odd length) or the average of the two central
values (even length).  On the empty list the source would read
`undefined` and produce `NaN`; the embedding returns `0` there, and no
theorem below evaluates the empty case (the spec declares it undefined
behaviour). -/
def median (numbers : List Rat) : Rat :=
  let sorted := jsSortNumbers numbers
  if sorted.length % 2 = 0 then
    (sorted.getD (sorted.length / 2 - 1) 0 + sorted.getD (sorted.length / 2) 0) / 2
  else
    sorted.getD ((sorted.length - 1) / 2) 0

/-- Follows the spec's words (§4.2), for comparison with the source's
`median`: sorts the numbers ascending **numerically**, then takes the
central value (odd length) or the average of the two central values
(even length). -/
def medianSpec (numbers : List Rat) : Rat :=
  let sorted := sortByLe (fun a b => decide (a ≤ b)) numbers
  if sorted.length % 2 = 0 then
    (sorted.getD (sorted.length / 2 - 1) 0 + sorted.getD (sorted.length / 2) 0) / 2
  else
    sorted.getD ((sorted.length - 1) / 2) 0

/-! ## Data model -/

/-- A category entry of the raw Lighthouse result (`lhr.categories`), before
trimming: id, title, numeric score, and the per-audit references that
`saveReport` strips.  The audit references are opaque here. -/
structure LHRCategory where
  id : String
  title : String
  score : Rat
  auditRefs : List String
  deriving DecidableEq, Repr

/-- A category entry after `saveReport` deleted `auditRefs` (the `lhrSlim`
shape). -/
structure SlimCategory where
  id : String
  title : String
  score : Rat
  deriving DecidableEq, Repr

/-- The `runtimeError` block of a raw Lighthouse result. -/
structure RuntimeError where
  code : String
  message : String
  deriving DecidableEq, Repr

/-- The raw Lighthouse result (`json.lhr`).  `categories` lists the values
of the category map in insertion order; `i18n` is the localisation block
that `saveReport` deletes (opaque); `auditedOn` is the timestamp field that
`saveReport` injects (absent on a fresh API result). -/
structure LHR where
  categories : List LHRCategory
  i18n : Option String
  runtimeError : Option RuntimeError
  auditedOn : Option Int
  deriving DecidableEq, Repr

/-- The full payload returned by the audit API (`json`): the raw result plus
the `crux` field-data object, modelled as its key-value entries. -/
structure AuditJson where
  lhr : LHR
  crux : List (String × String)
  deriving DecidableEq, Repr

/-- A run record as persisted in a URL's Firestore collection: the slim
category list, the audit timestamp, and the optional `crux` snapshot
(present only when the payload's field data was non-empty). -/
structure RunRecord where
  lhrSlim : List SlimCategory
  auditedOn : Int
  crux : Option (List (String × String))
  deriving DecidableEq, Repr

/-- An element of a `getReports` result: the stored run record data, plus
the full raw report attached to the single run it belongs to. -/
structure ResultRun where
  lhrSlim : List SlimCategory
  auditedOn : Int
  crux : Option (List (String × String))
  lhr : Option LHR
  deriving DecidableEq, Repr

/-- A `{maxResults, useCache}` configuration object.  Each field is
`Option`-valued because a partial object literal leaves the other property
`undefined`. -/
structure LHConfig where
  maxResults : Option Nat
  useCache : Option Bool
  deriving DecidableEq, Repr

/-- JS truthiness of an optional boolean: only a present `true` is truthy
(`undefined` and `false` are falsy). -/
def truthy : Option Bool → Bool
  | some true => true
  | _ => false

/-- The external state: Firestore collections (one per slugified URL, in
document-name order), the cloud-storage bucket of full reports (one per
slug), the `meta` collection of last-viewed timestamps, and the three
memcache entries the source uses, each with the value type the source
stores under it (`getAllSavedUrls`, `getMedianScoresOfAllUrls`, and the
`getReports_<slug>` family). -/
structure Store where
  collections : List (String × List RunRecord)
  blobs : List (String × LHR)
  meta : List (String × Int)
  cacheAllUrls : Option (List String)
  cacheMedians : Option (List (String × Rat))
  cacheReports : List (String × List ResultRun)
  deriving DecidableEq, Repr

/-! ## Association-list helpers (keyed external stores) -/

/-- Value stored under a key. -/
def lookupKey : List (String × β) → String → Option β
  | [], _ => none
  | (k, v) :: rest, key => if k = key then some v else lookupKey rest key

/-- Set the value under a key (replace if present, append otherwise). -/
def setKey : List (String × β) → String → β → List (String × β)
  | [], key, v => [(key, v)]
  | (k, w) :: rest, key, v =>
    if k = key then (k, v) :: rest else (k, w) :: setKey rest key v

/-- Remove a key (memcache `delete`). -/
def eraseKey (l : List (String × β)) (key : String) : List (String × β) :=
  l.filter (fun p => p.1 ≠ key)

/-- Apply `f` to the value under a key, if the key is present. -/
def updateKey : List (String × β) → String → (β → β) → List (String × β)
  | [], _, _ => []
  | (k, v) :: rest, key, f =>
    if k = key then (k, f v) :: updateKey rest key f
    else (k, v) :: updateKey rest key f

/-- Append a document to a collection (Firestore `add`, which creates the
collection when it does not exist yet). -/
def addDoc (cols : List (String × List RunRecord)) (key : String) (r : RunRecord) :
    List (String × List RunRecord) :=
  match lookupKey cols key with
  | some docs => setKey cols key (docs ++ [r])
  | none => cols ++ [(key, [r])]

/-- The documents of the collection named `key` (empty when absent). -/
def collectionOf (st : Store) (key : String) : List RunRecord :=
  (lookupKey st.collections key).getD []

/-! ## Firestore queries -/

/-- `orderBy('auditedOn', 'desc')` over a collection.  Firestore breaks
ties on the timestamp by document name; the model keeps insertion order
for ties, and no claim depends on the tie order. -/
def sortByAuditedOnDesc (docs : List RunRecord) : List RunRecord :=
  sortByLe (fun a b => decide (b.auditedOn ≤ a.auditedOn)) docs

/-- `orderBy('auditedOn', 'desc').limit(1).get().docs[0]`, keeping the
document's position in the collection so that an `update` through its ref
can be modelled in place. -/
def lastDocIdx (docs : List RunRecord) : Option (Nat × RunRecord) :=
  (sortByLe (fun a b => decide (b.2.auditedOn ≤ a.2.auditedOn)) docs.enum).head?

/-! ## Report store operations -/

/-- `uploadReport(lhr, name)`: saves the full report blob under
`lhrs/<name>.json`, overwriting. -/
def uploadReport (st : Store) (lhr : LHR) (name : String) : Store :=
  { st with blobs := setKey st.blobs name lhr }

/-- `getFullReport(url)`: downloads the blob for the slugified URL; `none`
models the not-found failure of the storage client. -/
def getFullReport (st : Store) (url : String) : Option LHR :=
  lookupKey st.blobs (slugify url)

/-- `updateLastViewed(url)`: sets `meta/<slug>.lastViewed` to the current
time. -/
def updateLastViewed (st : Store) (url : String) (now : Int) : Store :=
  { st with meta := setKey st.meta (slugify url) now }

/-- The slim run-record document that `saveReport` builds from the payload
(`{lhrSlim, auditedOn}` plus `crux` when the payload's field data is
non-empty). -/
def mkRunRecord (json : AuditJson) (now : Int) : RunRecord :=
  { lhrSlim := json.lhr.categories.map fun cat =>
      { id := cat.id, title := cat.title, score := cat.score }
    auditedOn := now
    crux := if json.crux.isEmpty then none else some json.crux }

/-- Firestore `update(data)` on a run record: the fields present in `data`
are overwritten, fields absent from `data` (here `crux`, when the new
payload has no field data) keep their stored value. -/
def mergeRunRecord (old : RunRecord) (data : RunRecord) : RunRecord :=
  { lhrSlim := data.lhrSlim
    auditedOn := data.auditedOn
    crux := match data.crux with
      | some c => some c
      | none => old.crux }

/-- Embedding of `saveReport(url, json, replace)` at time `now`.  Returns
the final state, the stored slim record, and the final value of the
caller's `json.lhr` object (which the source mutates: it deletes `i18n`
and injects `auditedOn`). -/
def saveReport (st : Store) (url : String) (json : AuditJson) (replace : Bool)
    (now : Int) : Store × RunRecord × LHR :=
  let lhr := { json.lhr with i18n := none }
  let data := mkRunRecord json now
  let slug := slugify url
  let c := collectionOf st slug
  let lastDoc := lastDocIdx c
  let st := if lastDoc.isNone then { st with cacheAllUrls := none } else st
  let lhr := { lhr with auditedOn := some now }
  let st := uploadReport st lhr slug
  let st :=
    match replace, lastDoc with
    | true, some (i, old) =>
      { st with collections :=
          updateKey st.collections slug (fun docs => docs.set i (mergeRunRecord old data)) }
    | _, _ => { st with collections := addDoc st.collections slug data }
  let st := updateLastViewed st url now
  let st := { st with
    cacheReports := eraseKey st.cacheReports ("getReports_" ++ slug)
    cacheMedians := none }
  (st, data, lhr)

/-! ## Audit orchestration (`runLighthouseAPI`) -/

/-- The value `runLighthouseAPI` resolves with: either the stored slim
record, or — after a caught error — the JSON built so far (`{}` when the
audit call itself threw, the audit payload otherwise) carrying the
stringified error in its `errors` field. -/
inductive RunResult where
  | ok (data : RunRecord)
  | failed (json : Option AuditJson) (errors : String)
  deriving DecidableEq, Repr

/-- Embedding of `runLighthouseAPI(url, replace)`.  The audit API call and
the save step are injected as `Except`-valued outcomes (`Except.error`
models a thrown error); the `saveReport` of this file is total, so the
`save` parameter also covers failures of the storage layer underneath it.
The body mirrors the source's try/catch: a throw anywhere inside the block
lands in the catch, which stores the stringified error on the result
instead of re-throwing. -/
def runLighthouseAPI (audit : Except String AuditJson)
    (save : AuditJson → Except String RunRecord) : RunResult :=
  match audit with
  | .error e => .failed none e
  | .ok json =>
    match json.lhr.runtimeError with
    | some re =>
      if re.code ≠ "NO_ERROR" then .failed (some json) (re.code ++ " " ++ re.message)
      else
        match save json with
        | .ok data => .ok data
        | .error e => .failed (some json) e
    | none =>
      match save json with
      | .ok data => .ok data
      | .error e => .failed (some json) e

/-! ## URL listing and score aggregation -/

/-- Prefix test on character lists (`String.prototype.startsWith`). -/
def startsWithChars : List Char → List Char → Bool
  | _, [] => true
  | [], _ :: _ => false
  | c :: cs, p :: ps => c = p && startsWithChars cs ps

/-- Embedding of `getAllSavedUrls({useCache}={useCache: true})`.  The
argument is `none` when the call site passes no object (the destructuring
default then applies), `some u` when it passes an object whose `useCache`
property is `u`.  On a cache miss the collection ids are filtered to those
starting with `http`, decoded, sorted (default string sort), and the cache
entry is repopulated unconditionally. -/
def getAllSavedUrls (st : Store) (cfg? : Option (Option Bool)) : Store × List String :=
  let useCache := match cfg? with
    | some u => u
    | none => some true
  let val := st.cacheAllUrls
  if val.isSome && truthy useCache then (st, val.getD [])
  else
    let ids := (st.collections.filter (fun p => !p.2.isEmpty)).map (fun p => p.1)
    let urls := sortByLe (fun a b => charListLe a.toList b.toList)
      ((ids.filter (fun id => startsWithChars id.toList "http".toList)).map deslugify)
    ({ st with cacheAllUrls := some urls }, urls)

/-- `scores[cat.id].push(score)`, creating the entry on first use; the map
is an insertion-ordered association list, like a JS object with string
keys. -/
def pushScore (m : List (String × List Rat)) (key : String) (v : Rat) :
    List (String × List Rat) :=
  match lookupKey m key with
  | some vs => setKey m key (vs ++ [v])
  | none => m ++ [(key, [v])]

/-- `combinedScores[cat].push(...scores)`, creating the entry on first
use. -/
def pushScores (m : List (String × List Rat)) (key : String) (vs : List Rat) :
    List (String × List Rat) :=
  match lookupKey m key with
  | some ws => setKey m key (ws ++ vs)
  | none => m ++ [(key, vs)]

/-- Embedding of `getAllScores(url, maxResults=MAX_REPORTS)`: the up to
`maxResults` most recent runs, reversed to oldest-first, scanned run by
run and category by category, pushing `score * 100`.  A missing
(`undefined`) argument triggers the parameter default. -/
def getAllScores (st : Store) (url : String) (maxResults? : Option Nat) :
    List (String × List Rat) :=
  let maxResults := maxResults?.getD MAX_REPORTS
  let docs := (sortByAuditedOnDesc (collectionOf st (slugify url))).take maxResults
  let runs := docs.reverse
  runs.foldl (fun scores doc =>
    doc.lhrSlim.foldl (fun s cat => pushScore s cat.id (cat.score * 100)) scores) []

/-- Embedding of `getMedianScores(url, maxResults=MAX_REPORTS)`: the
per-category median of one URL's saved scores. -/
def getMedianScores (st : Store) (url : String) (maxResults? : Option Nat) :
    List (String × Rat) :=
  (getAllScores st url maxResults?).map (fun p => (p.1, median p.2))

/-- Embedding of `getMedianScoresOfAllUrls({maxResults, useCache} =
{maxResults: MAX_REPORTS, useCache: true})`.  On a cache miss it pools the
per-category score lists of every saved URL by concatenation (the inner
`getAllSavedUrls()` call passes no argument, so it runs with its own
defaults) and takes the median of each pooled list; the cache entry is
repopulated only when `useCache` is truthy. -/
def getMedianScoresOfAllUrls (st : Store) (cfg? : Option LHConfig) :
    Store × List (String × Rat) :=
  let cfg := cfg?.getD { maxResults := some MAX_REPORTS, useCache := some true }
  let val := st.cacheMedians
  if val.isSome && truthy cfg.useCache then (st, val.getD [])
  else
    let res := getAllSavedUrls st none
    let st := res.1
    let combined := res.2.foldl (fun acc url =>
      (getAllScores st url cfg.maxResults).foldl (fun acc p => pushScores acc p.1 p.2) acc) []
    let medians := combined.map (fun p => (p.1, median p.2))
    let st := if truthy cfg.useCache then { st with cacheMedians := some medians } else st
    (st, medians)

/-! ## `getReports` -/

/-- The documents returned by the `getReports` query
(`orderBy('auditedOn', 'desc').limit(maxResults)`), newest first. -/
def fetchRuns (st : Store) (url : String) (maxResults? : Option Nat) : List RunRecord :=
  let c := collectionOf st (slugify url)
  (sortByAuditedOnDesc c).take (maxResults?.getD c.length)

/-- Embedding of `getReports(url, {maxResults, useCache} = {maxResults:
MAX_REPORTS, useCache: true})` at time `now`.  A cache hit (with truthy
`useCache`) still touches the last-viewed metadata.  On a miss with no
stored runs it returns the empty list without touching metadata or cache.
Otherwise it fetches the full report blob (a `none` result models the
propagated not-found throw), attaches it to the run whose timestamp equals
the blob's `auditedOn` (ISO-string comparison, modelled on the underlying
millisecond timestamps), and repopulates the cache only when `useCache` is
truthy.  An `undefined` `maxResults` is modelled as an unlimited query; the
real storage client would reject it, and no theorem below relies on that
case. -/
def getReports (st : Store) (url : String) (cfg? : Option LHConfig) (now : Int) :
    Store × Option (List ResultRun) :=
  let cfg := cfg?.getD { maxResults := some MAX_REPORTS, useCache := some true }
  let cacheKey := "getReports_" ++ slugify url
  let val := lookupKey st.cacheReports cacheKey
  if val.isSome && truthy cfg.useCache then
    (updateLastViewed st url now, some (val.getD []))
  else
    let docs := fetchRuns st url cfg.maxResults
    if docs.isEmpty then (st, some [])
    else
      let runs := docs.reverse
      let st := updateLastViewed st url now
      match getFullReport st url with
      | none => (st, none)
      | some lhr =>
        let runs := runs.map (fun r =>
          { lhrSlim := r.lhrSlim, auditedOn := r.auditedOn, crux := r.crux,
            lhr := if lhr.auditedOn = some r.auditedOn then some lhr else none : ResultRun })
        let st := if truthy cfg.useCache then
            { st with cacheReports := setKey st.cacheReports cacheKey runs }
          else st
        (st, some runs)

/-! ## Batched deletion -/

/-- Embedding of the `deleteBatch_` recursion: each round queries the first
(at most) 20 documents in name order; an empty snapshot resolves, a
non-empty one is deleted in a batch commit and the function re-invokes
itself.  The recursion is re-expressed structurally with a fuel argument;
`deleteReports` instantiates the fuel with the collection size, which
`deleteBatchGo_fuel_sufficient` below shows is never exhausted (each round
removes at least one document).  Returns the committed batch sizes and the
remaining documents. -/
def deleteBatchGo : Nat → List RunRecord → List Nat × List RunRecord
  | _, [] => ([], [])
  | 0, docs => ([], docs)
  | fuel + 1, docs@(_ :: _) =>
    let snapshot := docs.take 20
    let next := deleteBatchGo fuel (docs.drop 20)
    (snapshot.length :: next.1, next.2)

/-- Embedding of `deleteReports(url)` (`batchSize = 20`): deletes all run
records of the URL's collection in batches, returning the new state and
the sizes of the committed delete batches. -/
def deleteReports (st : Store) (url : String) : Store × List Nat :=
  let slug := slugify url
  let docs := collectionOf st slug
  let res := deleteBatchGo docs.length docs
  ({ st with collections := updateKey st.collections slug (fun _ => res.2) }, res.1)


/-! ## Concrete inputs used by counterexamples and witnesses -/

/-- A raw category with the given score. -/
def perfCat (q : Rat) : LHRCategory :=
  { id := "performance", title := "Performance", score := q, auditRefs := ["first-paint"] }

/-- A slim category with the given score. -/
def perfSlim (q : Rat) : SlimCategory :=
  { id := "performance", title := "Performance", score := q }

/-- A stored run with the given score and timestamp. -/
def perfRun (q : Rat) (t : Int) : RunRecord :=
  { lhrSlim := [perfSlim q], auditedOn := t, crux := none }

/-- Two saved URLs whose "performance" score lists are `[80]` and
`[90, 100]`: the pooled-median example of the spec. -/
def exampleStoreTwoUrls : Store :=
  { collections :=
      [(slugify "http://a", [perfRun (8/10) 1]),
       (slugify "http://b", [perfRun (9/10) 1, perfRun 1 2])],
    blobs := [], meta := [], cacheAllUrls := none, cacheMedians := none, cacheReports := [] }

/-- One saved URL (median 50) together with a stale cached global-median
value of 42. -/
def exampleStoreStaleCache : Store :=
  { collections := [(slugify "http://a", [perfRun (1/2) 1])],
    blobs := [], meta := [], cacheAllUrls := none,
    cacheMedians := some [("performance", 42)], cacheReports := [] }

/-- The full-report blob for `exampleStoreGet`, audited at time 2. -/
def exampleBlob : LHR :=
  { categories := [perfCat (9/10)], i18n := none, runtimeError := none, auditedOn := some 2 }

/-- Two runs (times 1 and 2) and the full-report blob of the newer run. -/
def exampleStoreGet : Store :=
  { collections := [(slugify "http://c", [perfRun 1 1, perfRun (9/10) 2])],
    blobs := [(slugify "http://c", exampleBlob)],
    meta := [], cacheAllUrls := none, cacheMedians := none, cacheReports := [] }

/-- A fresh audit payload: localisation block present, no `auditedOn`,
empty field data. -/
def exampleJson : AuditJson :=
  { lhr := { categories := [perfCat (8/10)], i18n := some "locale-data",
             runtimeError := none, auditedOn := none },
    crux := [] }

/-- An audit payload with non-empty field data. -/
def exampleJsonCrux : AuditJson :=
  { lhr := exampleJson.lhr, crux := [("fcp", "fast")] }

/-- A payload that already has no `i18n` and whose `auditedOn` equals the
save time used in the mutation counterexample. -/
def exampleJsonPreSet : AuditJson :=
  { lhr := { categories := [perfCat (8/10)], i18n := none,
             runtimeError := none, auditedOn := some 7 },
    crux := [] }

/-- One stored run whose record carries a `crux` snapshot. -/
def exampleStoreCrux : Store :=
  { collections :=
      [(slugify "http://a", [{ lhrSlim := [perfSlim (8/10)], auditedOn := 1,
                               crux := some [("fcp", "fast")] }])],
    blobs := [], meta := [], cacheAllUrls := some ["http://a"],
    cacheMedians := some [("performance", 80)],
    cacheReports := [("getReports_" ++ slugify "http://a", [])] }

/-- Forty-five stored runs. -/
def exampleRuns45 : List RunRecord :=
  (List.range 45).map (fun i => { lhrSlim := [], auditedOn := (i : Int), crux := none })

/-- A URL with forty-five run records. -/
def exampleStore45 : Store :=
  { collections := [(slugify "http://d", exampleRuns45)],
    blobs := [], meta := [], cacheAllUrls := none, cacheMedians := none, cacheReports := [] }

/-- A state with no collections at all. -/
def exampleStoreEmpty : Store :=
  { collections := [], blobs := [], meta := [], cacheAllUrls := none,
    cacheMedians := none, cacheReports := [] }

/-- An audit result whose `runtimeError` reports a non-success outcome. -/
def exampleBadJson : AuditJson :=
  { lhr := { categories := [perfCat (8/10)], i18n := none,
             runtimeError := some { code := "ERRORED_DOCUMENT_REQUEST", message := "boom" },
             auditedOn := none },
    crux := [] }

/-- A save step that succeeds, storing the slim record at time 5. -/
def exampleSaveOk (j : AuditJson) : Except String RunRecord :=
  .ok (mkRunRecord j 5)

/-! ## Lemmas about the stable sort -/

theorem insertLe_perm (le : α → α → Bool) (x : α) (l : List α) :
    List.Perm (insertLe le x l) (x :: l) := by
  induction l with
  | nil => exact List.Perm.refl _
  | cons y ys ih =>
    cases hxy : le x y with
    | true => simp [insertLe, hxy]
    | false =>
      simp only [insertLe, hxy, Bool.false_eq_true, if_false]
      exact (ih.cons y).trans (List.Perm.swap x y ys)

theorem sortByLe_perm (le : α → α → Bool) (l : List α) :
    List.Perm (sortByLe le l) l := by
  induction l with
  | nil => exact List.Perm.refl _
  | cons x xs ih => exact (insertLe_perm le x (sortByLe le xs)).trans (ih.cons x)

theorem insertLe_pairwise (le : α → α → Bool)
    (htr : ∀ a b c, le a b = true → le b c = true → le a c = true)
    (htot : ∀ a b, le a b = true ∨ le b a = true)
    (x : α) (l : List α) (h : l.Pairwise (fun a b => le a b = true)) :
    (insertLe le x l).Pairwise (fun a b => le a b = true) := by
  induction l with
  | nil => simp [insertLe]
  | cons y ys ih =>
    rw [List.pairwise_cons] at h
    obtain ⟨hy, hys⟩ := h
    cases hxy : le x y with
    | true =>
      simp only [insertLe, hxy, if_true]
      rw [List.pairwise_cons]
      refine ⟨?_, List.pairwise_cons.mpr ⟨hy, hys⟩⟩
      intro b hb
      rcases List.mem_cons.mp hb with hbx | hb
      · exact hbx ▸ hxy
      · exact htr x y b hxy (hy b hb)
    | false =>
      simp only [insertLe, hxy, Bool.false_eq_true, if_false]
      rw [List.pairwise_cons]
      refine ⟨?_, ih hys⟩
      intro b hb
      have hb' : b ∈ x :: ys := (insertLe_perm le x ys).mem_iff.mp hb
      rcases List.mem_cons.mp hb' with hbx | hb'
      · rcases htot x y with h' | h'
        · rw [h'] at hxy; exact absurd hxy (by simp)
        · exact hbx ▸ h'
      · exact hy b hb'

theorem sortByLe_pairwise (le : α → α → Bool)
    (htr : ∀ a b c, le a b = true → le b c = true → le a c = true)
    (htot : ∀ a b, le a b = true ∨ le b a = true) (l : List α) :
    (sortByLe le l).Pairwise (fun a b => le a b = true) := by
  induction l with
  | nil => simp [sortByLe]
  | cons x xs ih => exact insertLe_pairwise le htr htot x _ ih

theorem sortByLe_head_dominates (le : α → α → Bool)
    (htr : ∀ a b c, le a b = true → le b c = true → le a c = true)
    (htot : ∀ a b, le a b = true ∨ le b a = true)
    (l : List α) (x : α) (xs : List α) (h : sortByLe le l = x :: xs) :
    ∀ y ∈ l, le x y = true := by
  intro y hy
  have hy' : y ∈ x :: xs := h ▸ ((sortByLe_perm le l).symm.mem_iff.mp hy)
  rcases List.mem_cons.mp hy' with hyx | hy2
  · rcases htot x y with h' | h'
    · exact h'
    · exact hyx ▸ (hyx ▸ h')
  · have hp := sortByLe_pairwise le htr htot l
    rw [h, List.pairwise_cons] at hp
    exact hp.1 y hy2

/-! ## Lemmas about the keyed stores -/

theorem lookupKey_setKey_self (l : List (String × β)) (k : String) (v : β) :
    lookupKey (setKey l k v) k = some v := by
  induction l with
  | nil => simp [setKey, lookupKey]
  | cons p rest ih =>
    by_cases h : p.1 = k
    · simp [setKey, lookupKey, h]
    · simp [setKey, lookupKey, h, ih]

theorem lookupKey_eraseKey_self (l : List (String × β)) (k : String) :
    lookupKey (eraseKey l k) k = none := by
  induction l with
  | nil => simp [eraseKey, lookupKey]
  | cons p rest ih =>
    by_cases h : p.1 = k
    · simpa [eraseKey, List.filter, h] using ih
    · simpa [eraseKey, List.filter, h, lookupKey] using ih

theorem lookupKey_updateKey_self (l : List (String × β)) (k : String) (f : β → β) :
    lookupKey (updateKey l k f) k = (lookupKey l k).map f := by
  induction l with
  | nil => simp [updateKey, lookupKey]
  | cons p rest ih =>
    obtain ⟨k1, v1⟩ := p
    by_cases h : k1 = k
    · simp [updateKey, lookupKey, h]
    · simp [updateKey, lookupKey, h, ih]

theorem lookupKey_append_of_none (l₁ l₂ : List (String × β)) (k : String)
    (h : lookupKey l₁ k = none) :
    lookupKey (l₁ ++ l₂) k = lookupKey l₂ k := by
  induction l₁ with
  | nil => simp
  | cons p rest ih =>
    by_cases hp : p.1 = k
    · rw [lookupKey] at h
      simp [hp] at h
    · rw [lookupKey] at h
      simp only [hp, if_false] at h ⊢
      rw [List.cons_append, lookupKey]
      simp [hp, ih h]

theorem lookupKey_addDoc_self (cols : List (String × List RunRecord)) (k : String)
    (r : RunRecord) :
    lookupKey (addDoc cols k r) k = some ((lookupKey cols k).getD [] ++ [r]) := by
  cases h : lookupKey cols k with
  | some docs => simp [addDoc, h, lookupKey_setKey_self]
  | none =>
    rw [addDoc, h, lookupKey_append_of_none _ _ _ h]
    simp [lookupKey]

/-! ## Lemmas about `lastDocIdx` -/

theorem lastDocIdx_eq_none_iff (l : List RunRecord) :
    lastDocIdx l = none ↔ l = [] := by
  constructor
  · intro h
    rw [lastDocIdx] at h
    cases hS : sortByLe (fun a b => decide (b.2.auditedOn ≤ a.2.auditedOn)) l.enum with
    | nil =>
      have hlen := congrArg List.length hS
      rw [(sortByLe_perm _ _).length_eq, List.enum_length] at hlen
      exact List.length_eq_zero.mp hlen
    | cons p ps => rw [hS] at h; simp [List.head?] at h
  · intro h
    subst h
    rfl

theorem lastDocIdx_mostRecent (l : List RunRecord) (hne : l ≠ []) :
    ∃ i old, lastDocIdx l = some (i, old) ∧ l[i]? = some old ∧
      ∀ r ∈ l, r.auditedOn ≤ old.auditedOn := by
  have htr : ∀ a b c : Nat × RunRecord, decide (b.2.auditedOn ≤ a.2.auditedOn) = true →
      decide (c.2.auditedOn ≤ b.2.auditedOn) = true →
      decide (c.2.auditedOn ≤ a.2.auditedOn) = true := by
    intro a b c h1 h2
    exact decide_eq_true (le_trans (of_decide_eq_true h2) (of_decide_eq_true h1))
  have htot : ∀ a b : Nat × RunRecord, decide (b.2.auditedOn ≤ a.2.auditedOn) = true ∨
      decide (a.2.auditedOn ≤ b.2.auditedOn) = true := by
    intro a b
    rcases le_total b.2.auditedOn a.2.auditedOn with h | h
    · exact Or.inl (decide_eq_true h)
    · exact Or.inr (decide_eq_true h)
  cases hS : sortByLe (fun a b => decide (b.2.auditedOn ≤ a.2.auditedOn)) l.enum with
  | nil =>
    exfalso
    have hlen := congrArg List.length hS
    rw [(sortByLe_perm _ _).length_eq, List.enum_length] at hlen
    exact hne (List.length_eq_zero.mp hlen)
  | cons p ps =>
    refine ⟨p.1, p.2, ?_, ?_, ?_⟩
    · rw [lastDocIdx, hS]; rfl
    · have hmem : p ∈ l.enum := (sortByLe_perm _ _).subset (hS ▸ List.mem_cons_self p ps)
      exact List.mem_enum_iff_getElem?.mp hmem
    · intro r hr
      obtain ⟨j, hj, hgj⟩ := List.mem_iff_getElem.mp hr
      have hjr : (j, r) ∈ l.enum := by
        rw [List.mk_mem_enum_iff_getElem?]
        exact List.getElem?_eq_some_iff.mpr ⟨hj, hgj⟩
      have := sortByLe_head_dominates _ htr htot l.enum p ps hS (j, r) hjr
      exact of_decide_eq_true this

/-! ## Decomposition of the `saveReport` state transition -/

theorem saveReport_state (st : Store) (url : String) (json : AuditJson)
    (replace : Bool) (now : Int) :
    (saveReport st url json replace now).1
      = { collections :=
            (match replace, lastDocIdx (collectionOf st (slugify url)) with
              | true, some (i, old) =>
                updateKey st.collections (slugify url)
                  (fun docs => docs.set i (mergeRunRecord old (mkRunRecord json now)))
              | _, _ => addDoc st.collections (slugify url) (mkRunRecord json now))
          blobs := setKey st.blobs (slugify url)
            { json.lhr with i18n := none, auditedOn := some now }
          meta := setKey st.meta (slugify url) now
          cacheAllUrls :=
            (if lastDocIdx (collectionOf st (slugify url)) = none then none
             else st.cacheAllUrls)
          cacheMedians := none
          cacheReports := eraseKey st.cacheReports ("getReports_" ++ slugify url) } := by
  cases h : lastDocIdx (collectionOf st (slugify url)) with
  | none =>
    cases replace <;>
      simp [saveReport, h, updateLastViewed, uploadReport]
  | some p =>
    obtain ⟨i, old⟩ := p
    cases replace <;>
      simp [saveReport, h, updateLastViewed, uploadReport]

/-- C6: `saveReport` deletes the global all-URLs cache entry exactly when
the URL had zero prior run records, and on every save it deletes the
per-URL report-list cache entry and the global-median cache entry, leaving
the all-URLs entry untouched when prior runs exist. -/
theorem saveReport_cache_invalidation (st : Store) (url : String) (json : AuditJson)
    (replace : Bool) (now : Int) :
    (saveReport st url json replace now).1.cacheAllUrls
      = (if collectionOf st (slugify url) = [] then none else st.cacheAllUrls) ∧
    lookupKey (saveReport st url json replace now).1.cacheReports
      ("getReports_" ++ slugify url) = none ∧
    (saveReport st url json replace now).1.cacheMedians = none := by
  refine ⟨?_, ?_, ?_⟩
  · simp only [saveReport_state]
    by_cases h : collectionOf st (slugify url) = []
    · rw [if_pos ((lastDocIdx_eq_none_iff _).mpr h), if_pos h]
    · rw [if_neg (fun hn => h ((lastDocIdx_eq_none_iff _).mp hn)), if_neg h]
  · simp only [saveReport_state]
    exact lookupKey_eraseKey_self _ _
  · simp only [saveReport_state]

/-- C5 (amended): when `replace` is true and a prior run exists,
`saveReport` updates the most recent prior run record in place — its
`lhrSlim` and `auditedOn` are overwritten, while a `crux` field absent
from the new data is retained from the old record — and the run count is
unchanged; otherwise it appends a new run record and the run count grows
by exactly one. -/
theorem saveReport_replace_semantics (st : Store) (url : String) (json : AuditJson)
    (replace : Bool) (now : Int) :
    (replace = true → collectionOf st (slugify url) ≠ [] →
      ∃ i old, lastDocIdx (collectionOf st (slugify url)) = some (i, old) ∧
        (∀ r ∈ collectionOf st (slugify url), r.auditedOn ≤ old.auditedOn) ∧
        collectionOf (saveReport st url json replace now).1 (slugify url)
          = (collectionOf st (slugify url)).set i
              (mergeRunRecord old (mkRunRecord json now)) ∧
        (collectionOf (saveReport st url json replace now).1 (slugify url)).length
          = (collectionOf st (slugify url)).length) ∧
    ((replace = false ∨ collectionOf st (slugify url) = []) →
      collectionOf (saveReport st url json replace now).1 (slugify url)
        = collectionOf st (slugify url) ++ [mkRunRecord json now] ∧
      (collectionOf (saveReport st url json replace now).1 (slugify url)).length
        = (collectionOf st (slugify url)).length + 1) := by
  constructor
  · intro hrep hne
    subst hrep
    obtain ⟨i, old, hidx, hget, hdom⟩ := lastDocIdx_mostRecent _ hne
    obtain ⟨docs, hdocs⟩ : ∃ docs, lookupKey st.collections (slugify url) = some docs := by
      cases hcol : lookupKey st.collections (slugify url) with
      | none => rw [collectionOf, hcol] at hne; simp at hne
      | some docs => exact ⟨docs, rfl⟩
    have hEq : collectionOf (saveReport st url json true now).1 (slugify url)
        = (collectionOf st (slugify url)).set i
            (mergeRunRecord old (mkRunRecord json now)) := by
      simp only [saveReport_state, hidx]
      simp only [collectionOf, lookupKey_updateKey_self, hdocs, Option.map_some',
        Option.getD_some]
    exact ⟨i, old, hidx, hdom, hEq, by rw [hEq, List.length_set]⟩
  · intro hor
    have hEq : collectionOf (saveReport st url json replace now).1 (slugify url)
        = collectionOf st (slugify url) ++ [mkRunRecord json now] := by
      rcases hor with hrep | hemp
      · subst hrep
        simp only [saveReport_state]
        simp only [collectionOf, lookupKey_addDoc_self, Option.getD_some]
      · have hnone := (lastDocIdx_eq_none_iff (collectionOf st (slugify url))).mpr hemp
        cases replace <;>
          (simp only [saveReport_state, hnone]
           simp only [collectionOf, lookupKey_addDoc_self, Option.getD_some])
    refine ⟨hEq, ?_⟩
    rw [hEq, List.length_append, List.length_singleton]

/-- C5 (counterexample to the claim as stated): with `replace = true` and a
prior run whose record carries a `crux` snapshot, saving a payload with
empty field data does not overwrite the prior record with the new data —
the old `crux` survives the Firestore `update`, so the resulting record
differs from the record built from the new payload. -/
theorem saveReport_replace_retains_crux_cex :
    collectionOf (saveReport exampleStoreCrux "http://a" exampleJson true 9).1
        (slugify "http://a")
      = [{ lhrSlim := [perfSlim (8/10)], auditedOn := 9, crux := some [("fcp", "fast")] }] ∧
    collectionOf (saveReport exampleStoreCrux "http://a" exampleJson true 9).1
        (slugify "http://a")
      ≠ [mkRunRecord exampleJson 9] := by
  with_unfolding_all decide

/-- C5 (witness): the replace branch of `saveReport_replace_semantics` at a
concrete store with one prior run. -/
theorem saveReport_replace_semantics_witness :
    ∃ i old,
      lastDocIdx (collectionOf exampleStoreCrux (slugify "http://a")) = some (i, old) ∧
      (∀ r ∈ collectionOf exampleStoreCrux (slugify "http://a"),
        r.auditedOn ≤ old.auditedOn) ∧
      collectionOf (saveReport exampleStoreCrux "http://a" exampleJson true 9).1
          (slugify "http://a")
        = (collectionOf exampleStoreCrux (slugify "http://a")).set i
            (mergeRunRecord old (mkRunRecord exampleJson 9)) ∧
      (collectionOf (saveReport exampleStoreCrux "http://a" exampleJson true 9).1
          (slugify "http://a")).length
        = (collectionOf exampleStoreCrux (slugify "http://a")).length :=
  (saveReport_replace_semantics exampleStoreCrux "http://a" exampleJson true 9).1 rfl
    (by with_unfolding_all decide)

/-- C10 (amended): `saveReport` sets the caller's `json.lhr` to its
original value with the `i18n` field removed and `auditedOn` set to the
save timestamp; the result therefore differs from the passed-in value
whenever the input carried an `i18n` field or its `auditedOn` was not
already the save timestamp. -/
theorem saveReport_mutates_lhr (st : Store) (url : String) (json : AuditJson)
    (replace : Bool) (now : Int) :
    (saveReport st url json replace now).2.2
      = { json.lhr with i18n := none, auditedOn := some now } ∧
    (json.lhr.i18n ≠ none ∨ json.lhr.auditedOn ≠ some now →
      (saveReport st url json replace now).2.2 ≠ json.lhr) := by
  have h1 : (saveReport st url json replace now).2.2
      = { json.lhr with i18n := none, auditedOn := some now } := rfl
  refine ⟨h1, ?_⟩
  intro h heq
  rw [h1] at heq
  rcases h with h | h
  · exact h (congrArg LHR.i18n heq.symm)
  · exact h (congrArg LHR.auditedOn heq.symm)

/-- C10 (counterexample to the claim as stated): a payload whose `lhr`
already has no `i18n` field and whose `auditedOn` already equals the save
timestamp comes back from `saveReport` unchanged as a value, so the
caller's `json.lhr` does not differ after every call. -/
theorem saveReport_mutation_cex :
    (saveReport exampleStoreEmpty "http://a" exampleJsonPreSet false 7).2.2
      = exampleJsonPreSet.lhr := by
  with_unfolding_all decide

/-- C10 (witness): a payload carrying an `i18n` block is mutated. -/
theorem saveReport_mutates_lhr_witness :
    (saveReport exampleStoreCrux "http://a" exampleJson false 9).2.2
      = { exampleJson.lhr with i18n := none, auditedOn := some 9 } ∧
    (saveReport exampleStoreCrux "http://a" exampleJson false 9).2.2
      ≠ exampleJson.lhr :=
  ⟨(saveReport_mutates_lhr exampleStoreCrux "http://a" exampleJson false 9).1,
   (saveReport_mutates_lhr exampleStoreCrux "http://a" exampleJson false 9).2
     (Or.inl (by with_unfolding_all decide))⟩

/-! ## Batched deletion: termination -/

theorem deleteBatchGo_fuel_sufficient (fuel : Nat) (docs : List RunRecord)
    (h : docs.length ≤ fuel) : (deleteBatchGo fuel docs).2 = [] := by
  induction fuel generalizing docs with
  | zero =>
    have hd : docs = [] := List.length_eq_zero.mp (Nat.le_zero.mp h)
    subst hd; rfl
  | succ n ih =>
    cases docs with
    | nil => rfl
    | cons d ds =>
      show (deleteBatchGo n ((d :: ds).drop 20)).2 = []
      refine ih _ ?_
      rw [List.length_drop]
      have hlen : ds.length + 1 ≤ n + 1 := by simpa using h
      omega

/-- C9: `deleteReports` terminates leaving zero run records for the URL on
any state; on a URL with forty-five records it commits exactly the
batches `[20, 20, 5]`, and on a URL with no records it resolves
immediately, committing no batch and leaving the state unchanged. -/
theorem deleteReports_batches :
    (∀ st : Store, ∀ url : String,
      collectionOf (deleteReports st url).1 (slugify url) = []) ∧
    (deleteReports exampleStore45 "http://d").2 = [20, 20, 5] ∧
    collectionOf (deleteReports exampleStore45 "http://d").1 (slugify "http://d") = [] ∧
    (deleteReports exampleStoreEmpty "http://d").2 = [] ∧
    (deleteReports exampleStoreEmpty "http://d").1 = exampleStoreEmpty := by
  refine ⟨?_, ?_, ?_, ?_, ?_⟩
  · intro st url
    simp only [deleteReports, collectionOf, lookupKey_updateKey_self]
    cases hcol : lookupKey st.collections (slugify url) with
    | none => rfl
    | some docs =>
      simp [hcol, deleteBatchGo_fuel_sufficient docs.length docs (le_refl docs.length)]
  · with_unfolding_all decide
  · with_unfolding_all decide
  · with_unfolding_all decide
  · with_unfolding_all decide

/-- C8: `runLighthouseAPI` never propagates a failure as a thrown error —
when the audit call throws, when the audit reports a `runtimeError` with a
code other than `NO_ERROR`, or when the save step throws, it resolves with
a result object whose `errors` field describes the failure. -/
theorem runLighthouseAPI_wraps_failures (audit : Except String AuditJson)
    (save : AuditJson → Except String RunRecord) :
    (∀ e, audit = .error e → runLighthouseAPI audit save = .failed none e) ∧
    (∀ json re, audit = .ok json → json.lhr.runtimeError = some re →
      re.code ≠ "NO_ERROR" →
      runLighthouseAPI audit save = .failed (some json) (re.code ++ " " ++ re.message)) ∧
    (∀ json e, audit = .ok json →
      (∀ re, json.lhr.runtimeError = some re → re.code = "NO_ERROR") →
      save json = .error e → runLighthouseAPI audit save = .failed (some json) e) := by
  refine ⟨?_, ?_, ?_⟩
  · intro e h; subst h; rfl
  · intro json re h hre hcode
    subst h
    simp [runLighthouseAPI, hre, hcode]
  · intro json e h hre hsave
    subst h
    cases hrt : json.lhr.runtimeError with
    | none => simp [runLighthouseAPI, hrt, hsave]
    | some re =>
      have hcode : re.code = "NO_ERROR" := hre re hrt
      simp [runLighthouseAPI, hrt, hcode, hsave]

/-- C8 (witness): an audit whose `runtimeError` code is a failure resolves
with the code and message in the `errors` field. -/
theorem runLighthouseAPI_wraps_failures_witness :
    runLighthouseAPI (Except.ok exampleBadJson) exampleSaveOk
      = RunResult.failed (some exampleBadJson)
          ("ERRORED_DOCUMENT_REQUEST" ++ " " ++ "boom") :=
  (runLighthouseAPI_wraps_failures (Except.ok exampleBadJson) exampleSaveOk).2.1
    exampleBadJson { code := "ERRORED_DOCUMENT_REQUEST", message := "boom" } rfl rfl
    (by decide)

/-- C3 (amended): only an entirely omitted configuration object receives
the documented defaults (`maxResults = 10`, `useCache = true`).  A partial
configuration object does not have its unspecified fields filled: an
unspecified `useCache` behaves as `false` (the cache is bypassed and not
repopulated), and an unspecified `maxResults` is passed through as
`undefined` (in `getMedianScoresOfAllUrls` the per-parameter default of
`getAllScores` then restores the limit of 10). -/
theorem config_partial_no_default_fill (st : Store) (url : String) (now : Int)
    (m : Option Nat) (u : Option Bool) :
    getMedianScoresOfAllUrls st none
      = getMedianScoresOfAllUrls st (some { maxResults := some 10, useCache := some true }) ∧
    getReports st url none now
      = getReports st url (some { maxResults := some 10, useCache := some true }) now ∧
    getMedianScoresOfAllUrls st (some { maxResults := m, useCache := none })
      = getMedianScoresOfAllUrls st (some { maxResults := m, useCache := some false }) ∧
    getReports st url (some { maxResults := m, useCache := none }) now
      = getReports st url (some { maxResults := m, useCache := some false }) now ∧
    getMedianScoresOfAllUrls st (some { maxResults := none, useCache := u })
      = getMedianScoresOfAllUrls st (some { maxResults := some MAX_REPORTS, useCache := u }) :=
  ⟨rfl, rfl, rfl, rfl, rfl⟩

/-- C3 (counterexample to the claim as stated): with a warm global-median
cache, a call with the partial configuration `{maxResults: 10}` (leaving
`useCache` unspecified) recomputes the medians instead of returning the
cached value that the documented default `useCache = true` yields, so the
unspecified field is not filled with its default. -/
theorem config_partial_fill_cex :
    (getMedianScoresOfAllUrls exampleStoreStaleCache
        (some { maxResults := some 10, useCache := none })).2
      = [("performance", 50)] ∧
    (getMedianScoresOfAllUrls exampleStoreStaleCache
        (some { maxResults := some 10, useCache := some true })).2
      = [("performance", 42)] ∧
    ([("performance", (50 : Rat))] : List (String × Rat)) ≠ [("performance", 42)] := by
  with_unfolding_all decide

/-! ## Codec round-trip lemmas -/

theorem deslugifyChars_cons_of_ne (c : Char) (l : List Char) (hc : c ≠ '_') :
    deslugifyChars (c :: l) = c :: deslugifyChars l := by
  cases l with
  | nil => rfl
  | cons d ds => simp [deslugifyChars, hc]

theorem deslug_slug_chars (l : List Char) (h : '_' ∉ l) :
    deslugifyChars (slugifyChars l) = l := by
  induction l with
  | nil => rfl
  | cons c cs ih =>
    have hc : c ≠ '_' := fun hcu => h (hcu ▸ List.mem_cons_self c cs)
    have hcs : '_' ∉ cs := fun hm => h (List.mem_cons_of_mem c hm)
    by_cases hslash : c = '/'
    · subst hslash
      show deslugifyChars ('_' :: '_' :: slugifyChars cs) = '/' :: cs
      simp [deslugifyChars, ih hcs]
    · simp only [slugifyChars, if_neg hslash, List.singleton_append]
      rw [deslugifyChars_cons_of_ne c _ hc, ih hcs]

theorem deslugify_slugify (u : String) (hu : '_' ∉ u.toList) :
    deslugify (slugify u) = u := by
  obtain ⟨lu⟩ := u
  show String.mk (deslugifyChars (slugifyChars lu)) = String.mk lu
  rw [deslug_slug_chars lu hu]

/-- C4 (amended): for URLs containing no underscore character at all, the
codec round-trips (`deslugify (slugify u) = u`) and `slugify` is
collision-free.  (The claim's weaker precondition — merely lacking the
`__` escape substring — is not enough: an underscore adjacent to a slash
breaks both properties.) -/
theorem slugify_roundtrip_injective_no_underscore (u v : String)
    (hu : ∀ c ∈ u.toList, c ≠ '_') (hv : ∀ c ∈ v.toList, c ≠ '_') :
    deslugify (slugify u) = u ∧ (slugify u = slugify v → u = v) := by
  have hu' : '_' ∉ u.toList := fun hm => hu _ hm rfl
  have hv' : '_' ∉ v.toList := fun hm => hv _ hm rfl
  refine ⟨deslugify_slugify u hu', fun heq => ?_⟩
  rw [← deslugify_slugify u hu', heq, deslugify_slugify v hv']

/-- C4 (counterexample to the claim as stated): `"a_/b"` and `"a/_b"`
contain no `__` escape substring, are distinct, yet slugify to the same
identifier, and the round-trip fails on `"a_/b"`. -/
theorem slugify_codec_cex :
    hasDoubleUnderscore "a_/b".toList = false ∧
    hasDoubleUnderscore "a/_b".toList = false ∧
    "a_/b" ≠ "a/_b" ∧
    slugify "a_/b" = slugify "a/_b" ∧
    deslugify (slugify "a_/b") ≠ "a_/b" := by
  decide

/-- C4 (witness): the amended round-trip and injectivity at two concrete
URLs. -/
theorem slugify_roundtrip_injective_no_underscore_witness :
    deslugify (slugify "http://a") = "http://a" ∧
    (slugify "http://a" = slugify "http://b" → "http://a" = "http://b") :=
  slugify_roundtrip_injective_no_underscore "http://a" "http://b" (by decide) (by decide)

/-- C2 (code bug): `median` reproduces the spec's worked examples, but it
sorts with the comparator-less `Array.prototype.sort` — lexicographically
by string — instead of ascending numerically: on `[5, 10, 9]` it returns
5 (the middle of the string-sorted `[10, 5, 9]`), while the numeric-sort
median is 9. -/
theorem median_lexicographic_eval :
    median [5, 10, 9] = 5 ∧ medianSpec [5, 10, 9] = 9 ∧ ((5 : Rat) ≠ 9) ∧
    median [3, 5, 4, 4, 1, 1, 2, 3] = 3 ∧ median [1, 2, 3, 4] = 5/2 ∧ median [5] = 5 := by
  with_unfolding_all decide

/-- C1 (code bug): over two URLs whose "performance" score lists are
`[80]` and `[90, 100]`, `getMedianScoresOfAllUrls` pools the per-category
lists by concatenation as specified (not a mean of per-URL medians), but
returns 80 rather than the pooled median 90, because `median` sorts the
pooled sample `[80, 90, 100]` lexicographically into `[100, 80, 90]`. -/
theorem medianScoresOfAllUrls_pooled_eval :
    getAllScores exampleStoreTwoUrls "http://a" none = [("performance", [80])] ∧
    getAllScores exampleStoreTwoUrls "http://b" none = [("performance", [90, 100])] ∧
    (getMedianScoresOfAllUrls exampleStoreTwoUrls none).2 = [("performance", 80)] ∧
    medianSpec [80, 90, 100] = 90 ∧ ((80 : Rat) ≠ 90) := by
  with_unfolding_all decide

/-- C7: on a cache miss where at least one run is fetched, the full report
blob exists, and exactly one fetched run's timestamp matches the blob's
`auditedOn`, the `getReports` result attaches the full raw payload to
exactly one run — the matching one — and every other run keeps only its
slim data (`lhr` absent). -/
theorem getReports_attaches_full_report_uniquely
    (st : Store) (url : String) (cfg? : Option LHConfig) (now : Int) (blob : LHR) (T : Int)
    (hmiss : lookupKey st.cacheReports ("getReports_" ++ slugify url) = none)
    (hblob : lookupKey st.blobs (slugify url) = some blob)
    (hT : blob.auditedOn = some T)
    (hne : fetchRuns st url
        (cfg?.getD { maxResults := some MAX_REPORTS, useCache := some true }).maxResults ≠ [])
    (huniq : (fetchRuns st url
        (cfg?.getD { maxResults := some MAX_REPORTS, useCache := some true }).maxResults).countP
        (fun r => decide (r.auditedOn = T)) = 1) :
    ∃ rs, (getReports st url cfg? now).2 = some rs ∧
      rs.countP (fun r => r.lhr.isSome) = 1 ∧
      ∀ r ∈ rs, r.lhr = (if r.auditedOn = T then some blob else none) := by
  rw [getReports, hmiss]
  simp only [Option.isSome_none, Bool.false_and, Bool.false_eq_true, if_false,
    getFullReport, updateLastViewed, hblob]
  generalize hdg : fetchRuns st url
      (cfg?.getD { maxResults := some MAX_REPORTS, useCache := some true }).maxResults
      = docs at hne huniq ⊢
  have hfalse : docs.isEmpty = false := by
    cases docs with
    | nil => exact absurd rfl hne
    | cons a as => rfl
  simp only [hfalse, Bool.false_eq_true, if_false]
  refine ⟨_, rfl, ?_, ?_⟩
  · rw [List.countP_map, List.Perm.countP_eq _ (List.reverse_perm docs)]
    have hpred : ((fun r : ResultRun => r.lhr.isSome) ∘ (fun r : RunRecord =>
        ({ lhrSlim := r.lhrSlim, auditedOn := r.auditedOn, crux := r.crux,
           lhr := if blob.auditedOn = some r.auditedOn then some blob else none } :
          ResultRun)))
        = fun r => decide (r.auditedOn = T) := by
      funext r
      simp only [Function.comp_apply, hT]
      by_cases h : r.auditedOn = T
      · rw [h, if_pos rfl]
        simp
      · rw [if_neg (fun hc => h (Option.some.inj hc).symm)]
        simp [h]
    rw [hpred]
    exact huniq
  · intro r hr
    obtain ⟨d, hd, rfl⟩ := List.mem_map.mp hr
    simp only [hT]
    by_cases h : d.auditedOn = T
    · simp [h]
    · simp only [if_neg (fun hc : some T = some d.auditedOn => h (Option.some.inj hc).symm),
        Option.isSome_none]
      rw [if_neg h]

/-- C7 (witness): two stored runs, the blob matching the newer one. -/
theorem getReports_attaches_full_report_uniquely_witness :
    ∃ rs, (getReports exampleStoreGet "http://c" none 7).2 = some rs ∧
      rs.countP (fun r => r.lhr.isSome) = 1 ∧
      ∀ r ∈ rs, r.lhr = (if r.auditedOn = 2 then some exampleBlob else none) :=
  getReports_attaches_full_report_uniquely exampleStoreGet "http://c" none 7 exampleBlob 2
    rfl (by with_unfolding_all decide) rfl (by with_unfolding_all decide)
    (by with_unfolding_all decide)

end LHKeeper
